import Mathlib

/-!
Verification of the radial tree-layout engine of `radialgl.cpp`.

The source operates on a mutable tree of `Node` records (id, text, children,
and the computed fields depth, leafCount, angle, radius, x, y) with `float`
arithmetic.  We embed it shallowly: the tree is an inductive type, each
mutating pass becomes a pure function returning the updated tree, machine
floats become exact arithmetic over an arbitrary `LinearOrderedField`
(instantiated at `ℝ` in the claim theorems), and the transcendental
`std::cos`/`std::sin` become explicit function parameters `cosF`/`sinF`
(instantiated at `Real.cos`/`Real.sin`).  C++ `int` is embedded as `Int`
(no claim involves 32-bit overflow).
-/

namespace RadialGL

/-- Record of the per-node scalar fields of the C++ `struct Node`
(`id`, `text`, `depth`, `leafCount`, `angle`, `radius`, `x`, `y`).
The `parent` back-pointer is represented implicitly by the tree structure. -/
structure NodeData (α : Type) where
  id : String
  text : String
  depth : Int
  leafCount : Int
  angle : α
  radius : α
  x : α
  y : α
deriving DecidableEq

/-- The C++ `struct Node`: scalar fields plus the ordered
`std::vector<std::unique_ptr<Node>> children`. -/
inductive Node (α : Type) where
  | mk (data : NodeData α) (children : List (Node α))

/-- Scalar fields of a node. -/
def Node.data {α : Type} : Node α → NodeData α
  | .mk d _ => d

/-- Ordered child list of a node. -/
def Node.children {α : Type} : Node α → List (Node α)
  | .mk _ cs => cs

/-- Accessor for the `id` field. -/
def Node.id {α : Type} (n : Node α) : String := n.data.id

/-- Accessor for the `text` field. -/
def Node.text {α : Type} (n : Node α) : String := n.data.text

/-- Accessor for the `depth` field. -/
def Node.depth {α : Type} (n : Node α) : Int := n.data.depth

/-- Accessor for the `leafCount` field. -/
def Node.leafCount {α : Type} (n : Node α) : Int := n.data.leafCount

/-- Accessor for the `angle` field. -/
def Node.angle {α : Type} (n : Node α) : α := n.data.angle

/-- Accessor for the `radius` field. -/
def Node.radius {α : Type} (n : Node α) : α := n.data.radius

/-- Accessor for the `x` field. -/
def Node.x {α : Type} (n : Node α) : α := n.data.x

/-- Accessor for the `y` field. -/
def Node.y {α : Type} (n : Node α) : α := n.data.y

mutual

/-- Embedding of `computeDepthAndLeaves` (radialgl.cpp lines 186-194):
sets `n->depth = depth`; a childless node gets `leafCount = 1` and returns 1;
otherwise the children are processed with `depth + 1`, their returned counts
are summed, and `leafCount = max(1, sum)` is stored and returned.
The mutation is embedded as returning the updated tree with the return value. -/
def computeDepthAndLeaves {α : Type} (n : Node α) (depth : Int) : Node α × Int :=
match n with
| .mk d cs =>
  if cs.isEmpty then
    (.mk { d with depth := depth, leafCount := 1 } cs, 1)
  else
    let r := computeDepthAndLeavesList cs (depth + 1)
    (.mk { d with depth := depth, leafCount := max 1 r.2 } r.1, max 1 r.2)

/-- The `for (auto& ch : n->children) sum += computeDepthAndLeaves(ch.get(), depth + 1);`
loop of `computeDepthAndLeaves`: updates each child in order and sums the
returned leaf counts. -/
def computeDepthAndLeavesList {α : Type} (cs : List (Node α)) (depth : Int) :
    List (Node α) × Int :=
match cs with
| [] => ([], 0)
| c :: rest =>
  let rc := computeDepthAndLeaves c depth
  let rr := computeDepthAndLeavesList rest depth
  (rc.1 :: rr.1, rc.2 + rr.2)

end

/-- Embedding of the `int totalLeaves = 0; for (auto& ch : n->children)
totalLeaves += ch->leafCount;` accumulation in `assignAngles`
(radialgl.cpp lines 203-204). -/
def sumLeafCounts {α : Type} (cs : List (Node α)) : Int :=
  cs.foldl (fun acc c => acc + c.leafCount) 0

mutual

/-- Embedding of `assignAngles` (radialgl.cpp lines 196-213): sets
`n->angle = 0.5f * (a0 + a1)`; returns for a childless node; otherwise
computes `span = a1 - a0`, `totalLeaves = max(1, Σ child leafCount)`, and
walks the children giving each the sub-interval `[cur, cur + span * frac)`
with `frac = leafCount / totalLeaves`. -/
def assignAngles {α : Type} [LinearOrderedField α] (n : Node α) (a0 a1 : α) : Node α :=
match n with
| .mk d cs =>
  let d2 := { d with angle := (1 / 2 : α) * (a0 + a1) }
  if cs.isEmpty then .mk d2 cs
  else
    let span := a1 - a0
    let totalLeaves : Int := max 1 (sumLeafCounts cs)
    .mk d2 (assignAnglesList cs a0 span totalLeaves)

/-- The child loop of `assignAngles` (radialgl.cpp lines 207-212):
`frac = float(ch->leafCount) / float(totalLeaves); next = cur + span * frac;
assignAngles(ch, cur, next); cur = next;`. -/
def assignAnglesList {α : Type} [LinearOrderedField α] (cs : List (Node α))
    (cur span : α) (totalLeaves : Int) : List (Node α) :=
match cs with
| [] => []
| c :: rest =>
  let frac := (c.leafCount : α) / (totalLeaves : α)
  let next := cur + span * frac
  assignAngles c cur next :: assignAnglesList rest next span totalLeaves

end

mutual

/-- Embedding of `assignRadiiAndPositions` (radialgl.cpp lines 215-220):
`n->radius = n->depth * radiusStep; n->x = cos(n->angle) * n->radius;
n->y = sin(n->angle) * n->radius;` then recursion into every child.
`cosF`/`sinF` stand for `std::cos`/`std::sin`. -/
def assignRadiiAndPositions {α : Type} [LinearOrderedField α] (cosF sinF : α → α)
    (n : Node α) (radiusStep : α) : Node α :=
match n with
| .mk d cs =>
  let r := (d.depth : α) * radiusStep
  .mk { d with radius := r, x := cosF d.angle * r, y := sinF d.angle * r }
    (assignRadiiAndPositionsList cosF sinF cs radiusStep)

/-- The child loop of `assignRadiiAndPositions`. -/
def assignRadiiAndPositionsList {α : Type} [LinearOrderedField α] (cosF sinF : α → α)
    (cs : List (Node α)) (radiusStep : α) : List (Node α) :=
match cs with
| [] => []
| c :: rest =>
  assignRadiiAndPositions cosF sinF c radiusStep ::
    assignRadiiAndPositionsList cosF sinF rest radiusStep

end

/-- Embedding of `computeLayout` (radialgl.cpp lines 222-226):
`computeDepthAndLeaves(g_root.get(), 0); assignAngles(g_root.get(), 0.0f,
2.0f * M_PI); assignRadiiAndPositions(g_root.get(), RADIUS_STEP);`.
The globals `g_root` and `RADIUS_STEP` and the constant `2π` become the
parameters `root`, `radiusStep` and `twoPi`. -/
def computeLayout {α : Type} [LinearOrderedField α] (cosF sinF : α → α)
    (twoPi radiusStep : α) (root : Node α) : Node α :=
  assignRadiiAndPositions cosF sinF
    (assignAngles (computeDepthAndLeaves root 0).1 0 twoPi) radiusStep

/-- Embedding of `bezier3` (radialgl.cpp lines 230-244): Bernstein-form cubic
Bézier evaluation, returning the output pair `(outx, outy)`. -/
def bezier3 {α : Type} [LinearOrderedField α]
    (p0x p0y p1x p1y p2x p2y p3x p3y t : α) : α × α :=
  let u := 1 - t
  let b0 := u * u * u
  let b1 := 3 * u * u * t
  let b2 := 3 * u * t * t
  let b3 := t * t * t
  (b0 * p0x + b1 * p1x + b2 * p2x + b3 * p3x,
   b0 * p0y + b1 * p1y + b2 * p2y + b3 * p3y)

/-- Embedding of `polar` (radialgl.cpp lines 246-249):
`x = cos(a) * r; y = sin(a) * r;`. -/
def polar {α : Type} [Mul α] (cosF sinF : α → α) (r a : α) : α × α :=
  (cosF a * r, sinF a * r)

/-- Embedding of `drawLinkStraight` (radialgl.cpp lines 251-256): the two
vertices emitted between `glBegin(GL_LINES)` and `glEnd()`. -/
def drawLinkStraight {α : Type} (parent child : Node α) : List (α × α) :=
  [(parent.x, parent.y), (child.x, child.y)]

/-- Embedding of `drawLinkBezier` (radialgl.cpp lines 258-277): control points
`p0 = parent position`, `p1 = polar(parent.radius + 0.55 * RADIUS_STEP,
parent.angle)`, `p2 = polar(child.radius - 0.55 * RADIUS_STEP, child.angle)`,
`p3 = child position`; the result is the list of vertices emitted by the
`for (int i = 0; i <= BEZIER_SAMPLES; ++i)` loop at `t = i / BEZIER_SAMPLES`.
The globals `RADIUS_STEP` and `BEZIER_SAMPLES` become the parameters
`radiusStep` and `bezierSamples`. -/
def drawLinkBezier {α : Type} [LinearOrderedField α] (cosF sinF : α → α)
    (radiusStep : α) (bezierSamples : ℕ) (parent child : Node α) : List (α × α) :=
  let p0x := parent.x
  let p0y := parent.y
  let p3x := child.x
  let p3y := child.y
  let mid1r := parent.radius + (11 / 20 : α) * radiusStep
  let mid2r := child.radius - (11 / 20 : α) * radiusStep
  let p1 := polar cosF sinF mid1r parent.angle
  let p2 := polar cosF sinF mid2r child.angle
  (List.range (bezierSamples + 1)).map fun i : ℕ =>
    bezier3 p0x p0y p1.1 p1.2 p2.1 p2.2 p3x p3y ((i : α) / (bezierSamples : α))

/-- A FreeMind `<node>` element as seen by `parseNode`: `getAttr`
(radialgl.cpp lines 146-149) yields the empty string for an absent
attribute, so the `TEXT` and `ID` attributes are each modelled as a plain
string, and `children` is the list of child `<node>` elements in document
order. -/
inductive XmlNode where
  | mk (idAttr : String) (textAttr : String) (children : List XmlNode)

/-- Child elements of an `XmlNode`. -/
def XmlNode.children : XmlNode → List XmlNode
  | .mk _ _ cs => cs

/-- The `ID` attribute of an `XmlNode` (empty string when absent). -/
def XmlNode.idAttr : XmlNode → String
  | .mk i _ _ => i

/-- The `TEXT` attribute of an `XmlNode` (empty string when absent). -/
def XmlNode.textAttr : XmlNode → String
  | .mk _ t _ => t

mutual

/-- Embedding of `parseNode` (radialgl.cpp lines 151-166):
`n->text = getAttr(xmlNode, "TEXT"); n->id = getAttr(xmlNode, "ID");
if (n->id.empty()) n->id = "auto_" + std::to_string(g_autoId++);
if (n->text.empty()) n->text = n->id;` followed by the child loop that
inserts each parsed child at the front of `n->children`.  The global
counter `g_autoId` is threaded through explicitly (the program starts it
at 1); the computed layout fields start at their C++ default of 0. -/
def parseNode {α : Type} [LinearOrderedField α] (x : XmlNode) (autoId : ℕ) :
    Node α × ℕ :=
match x with
| .mk idAttr textAttr xcs =>
  let id1 := if idAttr = "" then "auto_" ++ toString autoId else idAttr
  let autoId1 := if idAttr = "" then autoId + 1 else autoId
  let text1 := if textAttr = "" then id1 else textAttr
  let r := parseNodeList xcs [] autoId1
  (.mk ⟨id1, text1, 0, 0, 0, 0, 0, 0⟩ r.1, r.2)

/-- The child loop of `parseNode`: `for (c = FirstChildElement("node"); c;
c = c->NextSiblingElement("node")) { auto child = parseNode(c, n.get());
n->children.insert(n->children.begin(), std::move(child)); }` — each parsed
child is pushed onto the front of the accumulated child list. -/
def parseNodeList {α : Type} [LinearOrderedField α] (xs : List XmlNode)
    (acc : List (Node α)) (autoId : ℕ) : List (Node α) × ℕ :=
match xs with
| [] => (acc, autoId)
| x :: rest =>
  let rc := parseNode x autoId
  parseNodeList rest (rc.1 :: acc) rc.2

end

/-- Generic strong induction over the nested tree type: to prove `P` for
every node it suffices to prove it for `Node.mk data cs` assuming it for
every member of `cs`, together with a list-level predicate `Q`. -/
theorem Node.recPair {α : Type} (P : Node α → Prop) (Q : List (Node α) → Prop)
    (hmk : ∀ d cs, Q cs → P (Node.mk d cs))
    (hnil : Q [])
    (hcons : ∀ c rest, P c → Q rest → Q (c :: rest)) :
    (∀ n, P n) ∧ (∀ cs, Q cs) := by
  have hn : ∀ n, P n := fun n =>
    @Node.rec α (fun m => P m) (fun l => Q l) hmk hnil hcons n
  refine ⟨hn, ?_⟩
  intro cs
  induction cs with
  | nil => exact hnil
  | cons c rest ih => exact hcons c rest (hn c) ih

mutual

/-- Number of leaf nodes (nodes with empty `children`) of a tree; the
reference quantity for the leaf-count pass. -/
def countLeaves {α : Type} : Node α → Int
  | .mk _ [] => 1
  | .mk _ (c :: rest) => countLeaves c + countLeavesList rest

/-- Sum of `countLeaves` over a list of trees. -/
def countLeavesList {α : Type} : List (Node α) → Int
  | [] => 0
  | c :: rest => countLeaves c + countLeavesList rest

end

mutual

/-- Every node of the tree stores `depth = d` at the root and `depth`
one larger on each step down (the depths `computeDepthAndLeaves` is
specified to write). -/
def depthsOk {α : Type} : Node α → Int → Prop
  | .mk d cs, dep => d.depth = dep ∧ depthsOkList cs (dep + 1)

/-- List form of `depthsOk`: every tree in the list at the given depth. -/
def depthsOkList {α : Type} : List (Node α) → Int → Prop
  | [], _ => True
  | c :: rest, dep => depthsOk c dep ∧ depthsOkList rest dep

end

mutual

/-- Every node of the tree stores the `leafCount` that the leaf-count pass
is specified to produce: `1` on a childless node, `max 1 (Σ children)` —
which moreover equals the plain sum — on a node with children. -/
def leafCountsSpec {α : Type} : Node α → Prop
  | .mk d cs =>
    (match cs with
     | [] => d.leafCount = 1
     | _ :: _ => d.leafCount = max 1 (sumLeafCounts cs) ∧
         d.leafCount = sumLeafCounts cs) ∧
    leafCountsSpecList cs

/-- List form of `leafCountsSpec`. -/
def leafCountsSpecList {α : Type} : List (Node α) → Prop
  | [] => True
  | c :: rest => leafCountsSpec c ∧ leafCountsSpecList rest

end

mutual

/-- Every node of the tree has `leafCount ≥ 1`. -/
def allLeafPos {α : Type} : Node α → Prop
  | .mk d cs => 1 ≤ d.leafCount ∧ allLeafPosList cs

/-- List form of `allLeafPos`. -/
def allLeafPosList {α : Type} : List (Node α) → Prop
  | [] => True
  | c :: rest => allLeafPos c ∧ allLeafPosList rest

end

/-- The angular sub-intervals that the child loop of `assignAngles` hands to
the successive children: for leaf counts `lc :: rest` starting at `cur`, the
first child receives `[cur, cur + span * (lc / totalLeaves))` and the rest
continue from its end (read off the loop at radialgl.cpp lines 207-212). -/
def childIntervals {α : Type} [LinearOrderedField α] (lcs : List Int)
    (cur span : α) (totalLeaves : Int) : List (α × α) :=
match lcs with
| [] => []
| lc :: rest =>
  let next := cur + span * ((lc : α) / (totalLeaves : α))
  (cur, next) :: childIntervals rest next span totalLeaves

/-- The intervals in the list are laid out contiguously starting at `a`:
the first starts at `a` and each subsequent one starts where its
predecessor ends. -/
def contiguousFrom {α : Type} (a : α) : List (α × α) → Prop
  | [] => True
  | (s, e) :: rest => s = a ∧ contiguousFrom e rest

/-- Right endpoint of the last interval in the list (`a` when the list is
empty). -/
def lastEnd {α : Type} (a : α) : List (α × α) → α
  | [] => a
  | (_, e) :: rest => lastEnd e rest

mutual

/-- The angular-partition invariant at a node that received the sector
`[a0, a1)`: if the node has children, the sub-intervals of the child loop
are contiguous in child order starting at `a0`, each has length
`(a1 - a0) * leafCount / Σ leafCounts`, each is ordered (`start ≤ end`,
hence the contiguous family is non-overlapping), and the last one ends at
`a1` (so their union is exactly `[a0, a1)`); and the same holds recursively
for every child inside its own sub-interval. -/
def sectorsOkAll {α : Type} [LinearOrderedField α] (n : Node α) (a0 a1 : α) : Prop :=
match n with
| .mk _ cs =>
  (cs = [] ∨
    (contiguousFrom a0 (childIntervals (cs.map Node.leafCount) a0 (a1 - a0) (max 1 (sumLeafCounts cs))) ∧
     (childIntervals (cs.map Node.leafCount) a0 (a1 - a0) (max 1 (sumLeafCounts cs))).map (fun p => p.2 - p.1)
       = cs.map (fun c => (a1 - a0) * ((c.leafCount : α) / ((sumLeafCounts cs : Int) : α))) ∧
     (∀ p ∈ childIntervals (cs.map Node.leafCount) a0 (a1 - a0) (max 1 (sumLeafCounts cs)), p.1 ≤ p.2) ∧
     lastEnd a0 (childIntervals (cs.map Node.leafCount) a0 (a1 - a0) (max 1 (sumLeafCounts cs))) = a1)) ∧
  sectorsOkList cs (childIntervals (cs.map Node.leafCount) a0 (a1 - a0) (max 1 (sumLeafCounts cs)))

/-- Each tree in the list satisfies `sectorsOkAll` on the corresponding
interval of the second list. -/
def sectorsOkList {α : Type} [LinearOrderedField α] :
    List (Node α) → List (α × α) → Prop
  | [], _ => True
  | _ :: _, [] => True
  | c :: rest, iv :: ivrest => sectorsOkAll c iv.1 iv.2 ∧ sectorsOkList rest ivrest

end

mutual

/-- Every sector handed out by the angular partition starting from
`[a0, a1)` has strictly positive width. -/
def spansPos {α : Type} [LinearOrderedField α] (n : Node α) (a0 a1 : α) : Prop :=
match n with
| .mk _ cs =>
  a0 < a1 ∧
  spansPosList cs (childIntervals (cs.map Node.leafCount) a0 (a1 - a0) (max 1 (sumLeafCounts cs)))

/-- Each tree in the list satisfies `spansPos` on the corresponding
interval of the second list. -/
def spansPosList {α : Type} [LinearOrderedField α] :
    List (Node α) → List (α × α) → Prop
  | [], _ => True
  | _ :: _, [] => True
  | c :: rest, iv :: ivrest => spansPos c iv.1 iv.2 ∧ spansPosList rest ivrest

end

/-- Strict ascending order of a list of values. -/
def strictlyIncreasing {α : Type} [LT α] : List α → Prop
  | [] => True
  | [_] => True
  | a :: b :: rest => a < b ∧ strictlyIncreasing (b :: rest)

mutual

/-- At every node of the tree, the stored `angle` fields of the children
are strictly increasing in child order. -/
def anglesMonoAll {α : Type} [LT α] : Node α → Prop
  | .mk _ cs => strictlyIncreasing (cs.map Node.angle) ∧ anglesMonoList cs

/-- List form of `anglesMonoAll`. -/
def anglesMonoList {α : Type} [LT α] : List (Node α) → Prop
  | [] => True
  | c :: rest => anglesMonoAll c ∧ anglesMonoList rest

end

mutual

/-- Every node of the tree satisfies the radial-projection equations
`radius = depth * radiusStep`, `x = cos angle * radius`,
`y = sin angle * radius`. -/
def positionsSpec {α : Type} [LinearOrderedField α] (cosF sinF : α → α)
    (radiusStep : α) : Node α → Prop
  | .mk d cs =>
    d.radius = (d.depth : α) * radiusStep ∧
    d.x = cosF d.angle * d.radius ∧
    d.y = sinF d.angle * d.radius ∧
    positionsSpecList cosF sinF radiusStep cs

/-- List form of `positionsSpec`. -/
def positionsSpecList {α : Type} [LinearOrderedField α] (cosF sinF : α → α)
    (radiusStep : α) : List (Node α) → Prop
  | [] => True
  | c :: rest => positionsSpec cosF sinF radiusStep c ∧
      positionsSpecList cosF sinF radiusStep rest

end

mutual

/-- The intrinsic content of a tree: `id`, `text` and the child structure,
with all six computed layout fields (`depth`, `leafCount`, `angle`,
`radius`, `x`, `y`) reset to zero.  Two trees with the same
`stripComputed` image differ at most in computed layout fields. -/
def stripComputed {α : Type} [LinearOrderedField α] : Node α → Node α
  | .mk d cs => .mk ⟨d.id, d.text, 0, 0, 0, 0, 0, 0⟩ (stripComputedList cs)

/-- List form of `stripComputed`. -/
def stripComputedList {α : Type} [LinearOrderedField α] :
    List (Node α) → List (Node α)
  | [] => []
  | c :: rest => stripComputed c :: stripComputedList rest

end

mutual

/-- Resets the fields written by the second and third layout passes
(`angle`, `radius`, `x`, `y`), keeping `id`, `text`, `depth`, `leafCount`. -/
def stripAngleRXY {α : Type} [LinearOrderedField α] : Node α → Node α
  | .mk d cs => .mk ⟨d.id, d.text, d.depth, d.leafCount, 0, 0, 0, 0⟩ (stripAngleRXYList cs)

/-- List form of `stripAngleRXY`. -/
def stripAngleRXYList {α : Type} [LinearOrderedField α] :
    List (Node α) → List (Node α)
  | [] => []
  | c :: rest => stripAngleRXY c :: stripAngleRXYList rest

end

mutual

/-- Resets the fields written by the third layout pass (`radius`, `x`,
`y`), keeping everything else. -/
def stripRXY {α : Type} [LinearOrderedField α] : Node α → Node α
  | .mk d cs => .mk ⟨d.id, d.text, d.depth, d.leafCount, d.angle, 0, 0, 0⟩ (stripRXYList cs)

/-- List form of `stripRXY`. -/
def stripRXYList {α : Type} [LinearOrderedField α] :
    List (Node α) → List (Node α)
  | [] => []
  | c :: rest => stripRXY c :: stripRXYList rest

end

mutual

/-- Preorder list of the `id` fields of all nodes of a tree. -/
def idsOf {α : Type} : Node α → List String
  | .mk d cs => d.id :: idsOfList cs

/-- List form of `idsOf`. -/
def idsOfList {α : Type} : List (Node α) → List String
  | [] => []
  | c :: rest => idsOf c ++ idsOfList rest

end

mutual

/-- Preorder list of the `ID` attributes of all elements of an XML tree. -/
def xmlIdsOf : XmlNode → List String
  | .mk i _ cs => i :: xmlIdsOfList cs

/-- List form of `xmlIdsOf`. -/
def xmlIdsOfList : List XmlNode → List String
  | [] => []
  | c :: rest => xmlIdsOf c ++ xmlIdsOfList rest

end

mutual

/-- Every element of the XML tree carries a nonempty `ID` attribute. -/
def xmlAllIdsPresent : XmlNode → Prop
  | .mk i _ cs => i ≠ "" ∧ xmlAllIdsPresentList cs

/-- List form of `xmlAllIdsPresent`. -/
def xmlAllIdsPresentList : List XmlNode → Prop
  | [] => True
  | c :: rest => xmlAllIdsPresent c ∧ xmlAllIdsPresentList rest

end

/-- Reference parse of a list of sibling elements in document order with the
auto-id counter threaded left to right: the parsed nodes in the same order
as the source document (contrast with `parseNodeList`, which accumulates
them in reverse). -/
def parseNodeListDocOrder {α : Type} [LinearOrderedField α] (xs : List XmlNode)
    (autoId : ℕ) : List (Node α) × ℕ :=
match xs with
| [] => ([], autoId)
| x :: rest =>
  let rc := parseNode (α := α) x autoId
  let rr := parseNodeListDocOrder (α := α) rest rc.2
  (rc.1 :: rr.1, rr.2)

/-- Value of the auto-id counter right after `parseNode` has assigned the
node's own id (incremented exactly when the `ID` attribute is absent). -/
def postIdCounter (x : XmlNode) (autoId : ℕ) : ℕ :=
  if x.idAttr = "" then autoId + 1 else autoId

/-- Cubic Bézier point written from the specification formula
`B(t) = (1-t)³ p0 + 3 (1-t)² t p1 + 3 (1-t) t² p2 + t³ p3`, to be compared
against the source's `bezier3`. -/
def bezierPointSpec {α : Type} [LinearOrderedField α] (p0 p1 p2 p3 : α × α)
    (t : α) : α × α :=
  ((1 - t) ^ 3 * p0.1 + 3 * (1 - t) ^ 2 * t * p1.1 + 3 * (1 - t) * t ^ 2 * p2.1 + t ^ 3 * p3.1,
   (1 - t) ^ 3 * p0.2 + 3 * (1 - t) ^ 2 * t * p1.2 + 3 * (1 - t) * t ^ 2 * p2.2 + t ^ 3 * p3.2)

mutual

/-- At every node of the tree, either it is childless or the divisor
`max 1 (Σ children leafCount)` that `assignAngles` divides by coincides
with the raw sum `Σ children leafCount` (the defensive clamp is a no-op). -/
def clampNoopAll {α : Type} : Node α → Prop
  | .mk _ cs => (cs = [] ∨ max 1 (sumLeafCounts cs) = sumLeafCounts cs) ∧
      clampNoopList cs

/-- List form of `clampNoopAll`. -/
def clampNoopList {α : Type} : List (Node α) → Prop
  | [] => True
  | c :: rest => clampNoopAll c ∧ clampNoopList rest

end

mutual

/-- At every node of the tree, the divisor `max 1 (Σ children leafCount)`
used by `assignAngles` is strictly positive (never zero), whatever the
stored `leafCount` values are. -/
def divisorPosAll {α : Type} : Node α → Prop
  | .mk _ cs => (0 : Int) < max 1 (sumLeafCounts cs) ∧ divisorPosList cs

/-- List form of `divisorPosAll`. -/
def divisorPosList {α : Type} : List (Node α) → Prop
  | [] => True
  | c :: rest => divisorPosAll c ∧ divisorPosList rest

end

section BasicLemmas

variable {α : Type}

@[simp] theorem Node.data_mk (d : NodeData α) (cs : List (Node α)) :
    (Node.mk d cs).data = d := rfl

@[simp] theorem Node.children_mk (d : NodeData α) (cs : List (Node α)) :
    (Node.mk d cs).children = cs := rfl

@[simp] theorem Node.id_mk (d : NodeData α) (cs : List (Node α)) :
    (Node.mk d cs).id = d.id := rfl

@[simp] theorem Node.text_mk (d : NodeData α) (cs : List (Node α)) :
    (Node.mk d cs).text = d.text := rfl

@[simp] theorem Node.depth_mk (d : NodeData α) (cs : List (Node α)) :
    (Node.mk d cs).depth = d.depth := rfl

@[simp] theorem Node.leafCount_mk (d : NodeData α) (cs : List (Node α)) :
    (Node.mk d cs).leafCount = d.leafCount := rfl

@[simp] theorem Node.angle_mk (d : NodeData α) (cs : List (Node α)) :
    (Node.mk d cs).angle = d.angle := rfl

@[simp] theorem Node.radius_mk (d : NodeData α) (cs : List (Node α)) :
    (Node.mk d cs).radius = d.radius := rfl

@[simp] theorem Node.x_mk (d : NodeData α) (cs : List (Node α)) :
    (Node.mk d cs).x = d.x := rfl

@[simp] theorem Node.y_mk (d : NodeData α) (cs : List (Node α)) :
    (Node.mk d cs).y = d.y := rfl

theorem sumLeafCounts_aux (cs : List (Node α)) :
    ∀ a : Int, cs.foldl (fun acc c => acc + c.leafCount) a
      = a + (cs.map Node.leafCount).sum := by
  induction cs with
  | nil => intro a; simp
  | cons c rest ih => intro a; simp [List.foldl_cons, ih, add_assoc]

/-- The accumulator loop `sumLeafCounts` computes the sum of the
children's `leafCount` fields. -/
theorem sumLeafCounts_eq (cs : List (Node α)) :
    sumLeafCounts cs = (cs.map Node.leafCount).sum := by
  simpa using sumLeafCounts_aux cs 0

@[simp] theorem sumLeafCounts_nil : sumLeafCounts ([] : List (Node α)) = 0 := rfl

theorem sumLeafCounts_cons (c : Node α) (rest : List (Node α)) :
    sumLeafCounts (c :: rest) = c.leafCount + sumLeafCounts rest := by
  simp [sumLeafCounts_eq]

theorem allLeafPos_leafCount {n : Node α} (h : allLeafPos n) : 1 ≤ n.leafCount := by
  cases n with
  | mk d cs => rw [allLeafPos] at h; simpa using h.1

theorem sumLeafCounts_nonneg {cs : List (Node α)} (h : allLeafPosList cs) :
    0 ≤ sumLeafCounts cs := by
  induction cs with
  | nil => simp
  | cons c rest ih =>
    rw [sumLeafCounts_cons]
    rw [allLeafPosList] at h
    have hc := allLeafPos_leafCount h.1
    have := ih h.2
    omega

theorem sumLeafCounts_pos {cs : List (Node α)} (h : allLeafPosList cs)
    (hne : cs ≠ []) : 1 ≤ sumLeafCounts cs := by
  cases cs with
  | nil => exact absurd rfl hne
  | cons c rest =>
    rw [sumLeafCounts_cons]
    rw [allLeafPosList] at h
    have hc := allLeafPos_leafCount h.1
    have := sumLeafCounts_nonneg h.2
    omega

theorem allLeafPosList_mem_node {cs : List (Node α)} (h : allLeafPosList cs) :
    ∀ c ∈ cs, 1 ≤ Node.leafCount c := by
  induction cs with
  | nil => simp
  | cons c rest ih =>
    rw [allLeafPosList] at h
    intro c2 hc2
    rcases List.mem_cons.mp hc2 with h1 | h2
    · subst h1; exact allLeafPos_leafCount h.1
    · exact ih h.2 c2 h2

theorem allLeafPosList_mem {cs : List (Node α)} (h : allLeafPosList cs) :
    ∀ lc ∈ cs.map Node.leafCount, 1 ≤ lc := by
  intro lc hlc
  rcases List.mem_map.mp hlc with ⟨c, hc, rfl⟩
  exact allLeafPosList_mem_node h c hc

theorem computeDepthAndLeaves_fst_depth (n : Node α) (dep : Int) :
    ((computeDepthAndLeaves n dep).1).depth = dep := by
  cases n with
  | mk d cs => by_cases h : cs.isEmpty <;> simp [computeDepthAndLeaves, h]

theorem computeDepthAndLeaves_fst_leafCount (n : Node α) (dep : Int) :
    ((computeDepthAndLeaves n dep).1).leafCount = (computeDepthAndLeaves n dep).2 := by
  cases n with
  | mk d cs => by_cases h : cs.isEmpty <;> simp [computeDepthAndLeaves, h]

theorem computeDepthAndLeaves_snd_pos (n : Node α) (dep : Int) :
    1 ≤ (computeDepthAndLeaves n dep).2 := by
  cases n with
  | mk d cs =>
    by_cases h : cs.isEmpty <;> simp [computeDepthAndLeaves, h]

end BasicLemmas

section LeafCountPass

variable {α : Type}

/-- Combined correctness of the leaf-count pass, proved by mutual induction:
the returned value counts the leaves of the subtree, depths are written as
`dep` at the root and incremented on each level, the stored `leafCount`
fields satisfy the contract (`1` at leaves, `max 1 (Σ children)` — equal to
the plain sum — at internal nodes) and every stored `leafCount` is `≥ 1`. -/
theorem computeDepthAndLeaves_main :
    (∀ n : Node α, ∀ dep : Int,
      (computeDepthAndLeaves n dep).2 = countLeaves n ∧
      depthsOk ((computeDepthAndLeaves n dep).1) dep ∧
      leafCountsSpec ((computeDepthAndLeaves n dep).1) ∧
      allLeafPos ((computeDepthAndLeaves n dep).1)) ∧
    (∀ cs : List (Node α), ∀ dep : Int,
      (computeDepthAndLeavesList cs dep).2 = countLeavesList cs ∧
      depthsOkList ((computeDepthAndLeavesList cs dep).1) dep ∧
      leafCountsSpecList ((computeDepthAndLeavesList cs dep).1) ∧
      allLeafPosList ((computeDepthAndLeavesList cs dep).1) ∧
      sumLeafCounts ((computeDepthAndLeavesList cs dep).1)
        = (computeDepthAndLeavesList cs dep).2) := by
  refine Node.recPair _ _ ?_ ?_ ?_
  · intro d cs hQ dep
    cases cs with
    | nil =>
      simp [computeDepthAndLeaves, countLeaves, depthsOk, depthsOkList,
        leafCountsSpec, leafCountsSpecList, allLeafPos, allLeafPosList]
    | cons c rest =>
      obtain ⟨h1, h2, h3, h4, h5⟩ := hQ (dep + 1)
      have hne : ((computeDepthAndLeavesList (c :: rest) (dep + 1)).1) ≠ [] := by
        simp [computeDepthAndLeavesList]
      have hsum : 1 ≤ (computeDepthAndLeavesList (c :: rest) (dep + 1)).2 := by
        rw [← h5]; exact sumLeafCounts_pos h4 hne
      have hmax : max 1 (computeDepthAndLeavesList (c :: rest) (dep + 1)).2
          = (computeDepthAndLeavesList (c :: rest) (dep + 1)).2 := by omega
      have hgoal : (computeDepthAndLeaves (Node.mk d (c :: rest)) dep)
          = (Node.mk
              { d with
                depth := dep
                leafCount := max 1 (computeDepthAndLeavesList (c :: rest) (dep + 1)).2 }
              ((computeDepthAndLeavesList (c :: rest) (dep + 1)).1),
             max 1 (computeDepthAndLeavesList (c :: rest) (dep + 1)).2) := rfl
      rw [hgoal]
      refine ⟨?_, ?_, ?_, ?_⟩
      · rw [hmax, h1]
        simp [countLeaves, countLeavesList]
      · rw [depthsOk]
        exact ⟨rfl, h2⟩
      · rcases hcons2 : (computeDepthAndLeavesList (c :: rest) (dep + 1)).1 with _ | ⟨c2, rest2⟩
        · exact absurd hcons2 hne
        · rw [hcons2] at h3 h5
          simp only [leafCountsSpec, Node.leafCount_mk]
          exact ⟨⟨by rw [h5], by rw [h5, hmax]⟩, h3⟩
      · rw [allLeafPos]
        exact ⟨by simp, h4⟩
  · intro dep
    simp [computeDepthAndLeavesList, countLeavesList, depthsOkList,
      leafCountsSpecList, allLeafPosList]
  · intro c rest hP hQ dep
    obtain ⟨p1, p2, p3, p4⟩ := hP dep
    obtain ⟨q1, q2, q3, q4, q5⟩ := hQ dep
    refine ⟨?_, ?_, ?_, ?_, ?_⟩
    · simp [computeDepthAndLeavesList, countLeavesList, p1, q1]
    · simp only [computeDepthAndLeavesList]
      rw [depthsOkList]
      exact ⟨p2, q2⟩
    · simp only [computeDepthAndLeavesList]
      rw [leafCountsSpecList]
      exact ⟨p3, q3⟩
    · simp only [computeDepthAndLeavesList]
      rw [allLeafPosList]
      exact ⟨p4, q4⟩
    · simp only [computeDepthAndLeavesList]
      rw [sumLeafCounts_cons, computeDepthAndLeaves_fst_leafCount, q5]

theorem computeDepthAndLeaves_allLeafPos (n : Node α) (dep : Int) :
    allLeafPos ((computeDepthAndLeaves n dep).1) :=
  ((computeDepthAndLeaves_main.1 n dep).2.2.2)

theorem computeDepthAndLeaves_snd_countLeaves (n : Node α) (dep : Int) :
    (computeDepthAndLeaves n dep).2 = countLeaves n :=
  (computeDepthAndLeaves_main.1 n dep).1

/-- Claim C2: `computeDepthAndLeaves(node, depth)` sets `node.depth = depth`
and recurses into every child with `depth + 1` (captured by `depthsOk`); a
node with no children gets `leafCount = 1` and a node with children gets
`leafCount = max(1, sum of children's counts)`, which always equals the
plain sum of the children's `leafCount`s (captured by `leafCountsSpec`);
the returned value — and hence the root's stored `leafCount` — equals the
total number of leaf nodes of the tree. -/
theorem c2_leafcount_pass_correct (t : Node ℝ) (dep : Int) :
    ((computeDepthAndLeaves t dep).1).depth = dep ∧
    depthsOk ((computeDepthAndLeaves t dep).1) dep ∧
    leafCountsSpec ((computeDepthAndLeaves t dep).1) ∧
    (computeDepthAndLeaves t dep).2 = countLeaves t ∧
    ((computeDepthAndLeaves t dep).1).leafCount = countLeaves t := by
  refine ⟨computeDepthAndLeaves_fst_depth t dep,
    (computeDepthAndLeaves_main.1 t dep).2.1,
    (computeDepthAndLeaves_main.1 t dep).2.2.1,
    computeDepthAndLeaves_snd_countLeaves t dep, ?_⟩
  rw [computeDepthAndLeaves_fst_leafCount]
  exact computeDepthAndLeaves_snd_countLeaves t dep

end LeafCountPass

section AngularPartition

variable {α : Type} [LinearOrderedField α]

theorem childIntervals_contiguous (lcs : List Int) (span : α) (total : Int) :
    ∀ cur : α, contiguousFrom cur (childIntervals lcs cur span total) := by
  induction lcs with
  | nil => intro cur; simp [childIntervals, contiguousFrom]
  | cons lc rest ih =>
    intro cur
    simp only [childIntervals]
    rw [contiguousFrom]
    exact ⟨rfl, ih _⟩

theorem childIntervals_widths (lcs : List Int) (span : α) (total : Int) :
    ∀ cur : α, (childIntervals lcs cur span total).map (fun p => p.2 - p.1)
      = lcs.map (fun lc : Int => span * ((lc : α) / (total : α))) := by
  induction lcs with
  | nil => intro cur; simp [childIntervals]
  | cons lc rest ih =>
    intro cur
    simp [childIntervals, ih, add_sub_cancel_left]

theorem childIntervals_lastEnd (lcs : List Int) (span : α) (total : Int) :
    ∀ cur : α, lastEnd cur (childIntervals lcs cur span total)
      = cur + span * ((lcs.sum : α) / (total : α)) := by
  induction lcs with
  | nil => intro cur; simp [childIntervals, lastEnd]
  | cons lc rest ih =>
    intro cur
    simp only [childIntervals, lastEnd]
    rw [ih, List.sum_cons, Int.cast_add]
    ring

theorem childIntervals_nonneg {lcs : List Int} {span : α} {total : Int}
    (hspan : 0 ≤ span) (htotal : 0 < total) (hlcs : ∀ lc ∈ lcs, 0 ≤ lc) :
    ∀ cur : α, ∀ p ∈ childIntervals lcs cur span total, p.1 ≤ p.2 := by
  induction lcs with
  | nil => intro cur p hp; simp [childIntervals] at hp
  | cons lc rest ih =>
    intro cur p hp
    simp only [childIntervals, List.mem_cons] at hp
    rcases hp with h1 | h2
    · subst h1
      have h0 : (0 : α) ≤ (lc : α) / (total : α) := by
        apply div_nonneg
        · exact_mod_cast hlcs lc (by simp)
        · exact_mod_cast le_of_lt htotal
      simpa using le_add_of_nonneg_right (a := cur) (mul_nonneg hspan h0)
    · exact ih (fun lc2 h => hlcs lc2 (List.mem_cons_of_mem _ h)) _ p h2

theorem childIntervals_pos {lcs : List Int} {span : α} {total : Int}
    (hspan : 0 < span) (htotal : 0 < total) (hlcs : ∀ lc ∈ lcs, 1 ≤ lc) :
    ∀ cur : α, ∀ p ∈ childIntervals lcs cur span total, p.1 < p.2 := by
  induction lcs with
  | nil => intro cur p hp; simp [childIntervals] at hp
  | cons lc rest ih =>
    intro cur p hp
    simp only [childIntervals, List.mem_cons] at hp
    rcases hp with h1 | h2
    · subst h1
      have h0 : (0 : α) < (lc : α) / (total : α) := by
        apply div_pos
        · exact_mod_cast lt_of_lt_of_le one_pos (hlcs lc (by simp))
        · exact_mod_cast htotal
      simpa using lt_add_of_pos_right cur (mul_pos hspan h0)
    · exact ih (fun lc2 h => hlcs lc2 (List.mem_cons_of_mem _ h)) _ p h2

theorem assignAngles_leafCount (n : Node α) (a0 a1 : α) :
    (assignAngles n a0 a1).leafCount = n.leafCount := by
  cases n with
  | mk d cs => by_cases h : cs.isEmpty <;> simp [assignAngles, h]

theorem assignAngles_angle (n : Node α) (a0 a1 : α) :
    (assignAngles n a0 a1).angle = (1 / 2 : α) * (a0 + a1) := by
  cases n with
  | mk d cs => by_cases h : cs.isEmpty <;> simp [assignAngles, h]

theorem assignAnglesList_map_leafCount (cs : List (Node α)) (total : Int) :
    ∀ cur span : α, (assignAnglesList cs cur span total).map Node.leafCount
      = cs.map Node.leafCount := by
  induction cs with
  | nil => intro cur span; simp [assignAnglesList]
  | cons c rest ih =>
    intro cur span
    simp [assignAnglesList, assignAngles_leafCount, ih]

theorem assignAnglesList_sumLeafCounts (cs : List (Node α)) (total : Int)
    (cur span : α) :
    sumLeafCounts (assignAnglesList cs cur span total) = sumLeafCounts cs := by
  rw [sumLeafCounts_eq, sumLeafCounts_eq, assignAnglesList_map_leafCount]

theorem assignAnglesList_map_widthfun (cs : List (Node α)) (total : Int) (s b : α) :
    ∀ cur span : α, (assignAnglesList cs cur span total).map
        (fun c2 => s * ((Node.leafCount c2 : α) / b))
      = cs.map (fun c2 => s * ((Node.leafCount c2 : α) / b)) := by
  induction cs with
  | nil => intro cur span; simp [assignAnglesList]
  | cons c rest ih =>
    intro cur span
    simp [assignAnglesList, assignAngles_leafCount, ih]

theorem assignAnglesList_map_angle (cs : List (Node α)) (total : Int) :
    ∀ cur span : α, (assignAnglesList cs cur span total).map Node.angle
      = (childIntervals (cs.map Node.leafCount) cur span total).map
          (fun p => (1 / 2 : α) * (p.1 + p.2)) := by
  induction cs with
  | nil => intro cur span; simp [assignAnglesList, childIntervals]
  | cons c rest ih =>
    intro cur span
    simp only [assignAnglesList, childIntervals, List.map_cons]
    rw [assignAngles_angle, ih]

/-- Main inductive invariant of the angular partition pass: on a tree whose
`leafCount` fields are all `≥ 1` and on a nonempty interval, the output of
`assignAngles` satisfies the full sector invariant `sectorsOkAll`. -/
theorem assignAngles_sectorsOk :
    (∀ n : Node α, ∀ a0 a1 : α, allLeafPos n → a0 ≤ a1 →
      sectorsOkAll (assignAngles n a0 a1) a0 a1) ∧
    (∀ cs : List (Node α), ∀ (cur span : α) (total : Int), allLeafPosList cs →
      0 ≤ span → 0 < total →
      sectorsOkList (assignAnglesList cs cur span total)
        (childIntervals (cs.map Node.leafCount) cur span total)) := by
  refine Node.recPair _ _ ?_ ?_ ?_
  · intro d cs hQ a0 a1 hpos hle
    rw [allLeafPos] at hpos
    cases cs with
    | nil =>
      simp [assignAngles, sectorsOkAll, sectorsOkList]
    | cons c rest =>
      have hspan : (0 : α) ≤ a1 - a0 := sub_nonneg.mpr hle
      have hsum1 : 1 ≤ sumLeafCounts (c :: rest) :=
        sumLeafCounts_pos hpos.2 (List.cons_ne_nil c rest)
      have hclamp : max 1 (sumLeafCounts (c :: rest)) = sumLeafCounts (c :: rest) := by
        omega
      have htot : (0 : Int) < max 1 (sumLeafCounts (c :: rest)) := by omega
      have hunfold : assignAngles (Node.mk d (c :: rest)) a0 a1
          = Node.mk { d with angle := (1 / 2 : α) * (a0 + a1) }
              (assignAnglesList (c :: rest) a0 (a1 - a0)
                (max 1 (sumLeafCounts (c :: rest)))) := by
        simp [assignAngles]
      rw [hunfold, sectorsOkAll,
        assignAnglesList_map_leafCount, assignAnglesList_sumLeafCounts]
      constructor
      · refine Or.inr ⟨childIntervals_contiguous _ _ _ a0, ?_, ?_, ?_⟩
        · rw [childIntervals_widths, hclamp, List.map_map,
            assignAnglesList_map_widthfun]
          rfl
        · exact childIntervals_nonneg hspan htot
            (fun lc h => le_trans zero_le_one (allLeafPosList_mem hpos.2 lc h)) a0
        · rw [childIntervals_lastEnd, ← sumLeafCounts_eq, hclamp]
          have hne0 : ((sumLeafCounts (c :: rest) : Int) : α) ≠ 0 := by
            have : (0 : α) < ((sumLeafCounts (c :: rest) : Int) : α) := by
              exact_mod_cast lt_of_lt_of_le one_pos hsum1
            exact ne_of_gt this
          rw [div_self hne0, mul_one, add_sub_cancel]
      · exact hQ a0 (a1 - a0) (max 1 (sumLeafCounts (c :: rest))) hpos.2 hspan htot
  · intro cur span total hcl hspan htot
    simp [assignAnglesList, childIntervals, sectorsOkList]
  · intro c rest hP hQ cur span total hcl hspan htot
    rw [allLeafPosList] at hcl
    simp only [assignAnglesList, List.map_cons, childIntervals]
    rw [sectorsOkList]
    constructor
    · refine hP cur _ hcl.1 ?_
      have h0 : (0 : α) ≤ (Node.leafCount c : α) / (total : α) := by
        apply div_nonneg
        · have := allLeafPos_leafCount hcl.1
          exact_mod_cast le_trans zero_le_one this
        · exact_mod_cast le_of_lt htot
      exact le_add_of_nonneg_right (mul_nonneg hspan h0)
    · exact hQ _ span total hcl.2 hspan htot

/-- Claim C1: after `computeDepthAndLeaves(root, 0)` and
`assignAngles(root, 0, 2π)`, at every node with children the children's
angular sub-intervals are contiguous in child order starting at the
parent's interval start, each sub-interval's length is the parent's length
times the child's `leafCount` divided by the sum of the children's
`leafCount`s, the sub-intervals are ordered (hence non-overlapping), and
the last one ends exactly at the parent's interval end (so their union is
the parent's interval); the root receives `[0, 2π)`, so the top-level
sectors partition one full turn. -/
theorem c1_angular_partition (t : Node ℝ) :
    sectorsOkAll
      (assignAngles ((computeDepthAndLeaves t 0).1) 0 (2 * Real.pi))
      0 (2 * Real.pi) := by
  apply assignAngles_sectorsOk.1
  · exact computeDepthAndLeaves_allLeafPos t 0
  · positivity

end AngularPartition

section StrictSectors

variable {α : Type} [LinearOrderedField α]

theorem childIntervals_midpoints_mono {span : α} {total : Int}
    (hspan : 0 < span) (htotal : 0 < total) :
    ∀ lcs : List Int, (∀ lc ∈ lcs, 1 ≤ lc) →
    ∀ cur : α, strictlyIncreasing ((childIntervals lcs cur span total).map
      (fun p => (1 / 2 : α) * (p.1 + p.2))) := by
  intro lcs
  induction lcs with
  | nil => intro hlcs cur; simp [childIntervals, strictlyIncreasing]
  | cons lc rest ih =>
    intro hlcs cur
    cases rest with
    | nil => simp [childIntervals, strictlyIncreasing]
    | cons lc2 rest2 =>
      have hw1 : (0 : α) < span * ((lc : α) / (total : α)) := by
        apply mul_pos hspan
        apply div_pos
        · exact_mod_cast lt_of_lt_of_le one_pos (hlcs lc (by simp))
        · exact_mod_cast htotal
      have hw2 : (0 : α) < span * ((lc2 : α) / (total : α)) := by
        apply mul_pos hspan
        apply div_pos
        · exact_mod_cast lt_of_lt_of_le one_pos (hlcs lc2 (by simp))
        · exact_mod_cast htotal
      have hrest := ih (fun lc3 h => hlcs lc3 (List.mem_cons_of_mem _ h))
        (cur + span * ((lc : α) / (total : α)))
      simp only [childIntervals, List.map_cons] at hrest ⊢
      rw [strictlyIncreasing]
      refine ⟨by linarith, hrest⟩

/-- Main inductive invariant for strict sector positivity and strictly
increasing sibling angles: on a tree with all `leafCount ≥ 1` and a
nondegenerate interval, every sector handed out is nonempty and the written
sibling angles are strictly increasing. -/
theorem assignAngles_strict :
    (∀ n : Node α, ∀ a0 a1 : α, allLeafPos n → a0 < a1 →
      spansPos n a0 a1 ∧ anglesMonoAll (assignAngles n a0 a1)) ∧
    (∀ cs : List (Node α), ∀ (cur span : α) (total : Int), allLeafPosList cs →
      0 < span → 0 < total →
      spansPosList cs (childIntervals (cs.map Node.leafCount) cur span total) ∧
      anglesMonoList (assignAnglesList cs cur span total)) := by
  refine Node.recPair _ _ ?_ ?_ ?_
  · intro d cs hQ a0 a1 hpos hlt
    rw [allLeafPos] at hpos
    cases cs with
    | nil =>
      constructor
      · rw [spansPos]
        simp [childIntervals, spansPosList, hlt]
      · simp [assignAngles, anglesMonoAll, anglesMonoList, strictlyIncreasing]
    | cons c rest =>
      have hspan : (0 : α) < a1 - a0 := sub_pos.mpr hlt
      have htot : (0 : Int) < max 1 (sumLeafCounts (c :: rest)) := by
        have := sumLeafCounts_pos hpos.2 (List.cons_ne_nil c rest)
        omega
      obtain ⟨hsp, hmono⟩ :=
        hQ a0 (a1 - a0) (max 1 (sumLeafCounts (c :: rest))) hpos.2 hspan htot
      constructor
      · rw [spansPos]
        exact ⟨hlt, hsp⟩
      · have hunfold : assignAngles (Node.mk d (c :: rest)) a0 a1
            = Node.mk { d with angle := (1 / 2 : α) * (a0 + a1) }
                (assignAnglesList (c :: rest) a0 (a1 - a0)
                  (max 1 (sumLeafCounts (c :: rest)))) := by
          simp [assignAngles]
        rw [hunfold, anglesMonoAll, assignAnglesList_map_angle]
        refine ⟨childIntervals_midpoints_mono hspan htot _
          (allLeafPosList_mem hpos.2) a0, hmono⟩
  · intro cur span total hcl hspan htot
    simp [assignAnglesList, childIntervals, spansPosList, anglesMonoList]
  · intro c rest hP hQ cur span total hcl hspan htot
    rw [allLeafPosList] at hcl
    have hnext : cur < cur + span * ((Node.leafCount c : α) / (total : α)) := by
      have h0 : (0 : α) < (Node.leafCount c : α) / (total : α) := by
        apply div_pos
        · exact_mod_cast lt_of_lt_of_le one_pos (allLeafPos_leafCount hcl.1)
        · exact_mod_cast htot
      exact lt_add_of_pos_right cur (mul_pos hspan h0)
    obtain ⟨hp1, hp2⟩ := hP cur _ hcl.1 hnext
    obtain ⟨hq1, hq2⟩ := hQ _ span total hcl.2 hspan htot
    constructor
    · simp only [List.map_cons, childIntervals]
      rw [spansPosList]
      exact ⟨hp1, hq1⟩
    · simp only [assignAnglesList]
      rw [anglesMonoList]
      exact ⟨hp2, hq2⟩

/-- Claim C10: starting from the root interval `[0, 2π)` on the tree
produced by `computeDepthAndLeaves(root, 0)`, every angular sector handed
out by `assignAngles` has strictly positive width, and consequently the
angles stored at any node's children are strictly increasing in child
order — no two siblings receive the same angle. -/
theorem c10_sectors_positive_angles_increasing (t : Node ℝ) :
    spansPos ((computeDepthAndLeaves t 0).1) 0 (2 * Real.pi) ∧
    anglesMonoAll (assignAngles ((computeDepthAndLeaves t 0).1) 0 (2 * Real.pi)) := by
  apply assignAngles_strict.1
  · exact computeDepthAndLeaves_allLeafPos t 0
  · positivity

end StrictSectors

section RadialProjection

variable {α : Type} [LinearOrderedField α]

theorem assignRadiiAndPositions_spec (cosF sinF : α → α) :
    (∀ n : Node α, ∀ rs : α,
      positionsSpec cosF sinF rs (assignRadiiAndPositions cosF sinF n rs)) ∧
    (∀ cs : List (Node α), ∀ rs : α,
      positionsSpecList cosF sinF rs (assignRadiiAndPositionsList cosF sinF cs rs)) := by
  refine Node.recPair _ _ ?_ ?_ ?_
  · intro d cs hQ rs
    have h : assignRadiiAndPositions cosF sinF (Node.mk d cs) rs
        = Node.mk
            { d with
              radius := (d.depth : α) * rs
              x := cosF d.angle * ((d.depth : α) * rs)
              y := sinF d.angle * ((d.depth : α) * rs) }
            (assignRadiiAndPositionsList cosF sinF cs rs) := rfl
    rw [h, positionsSpec]
    exact ⟨rfl, rfl, rfl, hQ rs⟩
  · intro rs
    simp [assignRadiiAndPositionsList, positionsSpecList]
  · intro c rest hP hQ rs
    simp only [assignRadiiAndPositionsList]
    rw [positionsSpecList]
    exact ⟨hP rs, hQ rs⟩

theorem assignRadiiAndPositions_depth (cosF sinF : α → α) (n : Node α) (rs : α) :
    (assignRadiiAndPositions cosF sinF n rs).depth = n.depth := by
  cases n with
  | mk d cs => rfl

theorem assignRadiiAndPositions_radius (cosF sinF : α → α) (n : Node α) (rs : α) :
    (assignRadiiAndPositions cosF sinF n rs).radius = (n.depth : α) * rs := by
  cases n with
  | mk d cs => rfl

theorem assignRadiiAndPositions_x (cosF sinF : α → α) (n : Node α) (rs : α) :
    (assignRadiiAndPositions cosF sinF n rs).x
      = cosF n.angle * ((n.depth : α) * rs) := by
  cases n with
  | mk d cs => rfl

theorem assignRadiiAndPositions_y (cosF sinF : α → α) (n : Node α) (rs : α) :
    (assignRadiiAndPositions cosF sinF n rs).y
      = sinF n.angle * ((n.depth : α) * rs) := by
  cases n with
  | mk d cs => rfl

theorem assignAngles_depth (n : Node α) (a0 a1 : α) :
    (assignAngles n a0 a1).depth = n.depth := by
  cases n with
  | mk d cs => by_cases h : cs.isEmpty <;> simp [assignAngles, h]

/-- Claim C3: after the full layout, every node satisfies
`radius = depth * radiusStep`, `x = cos(angle) * radius`,
`y = sin(angle) * radius`; the root has `depth = 0`, hence lands exactly at
the origin (`radius = 0`, `x = y = 0`) for every value of `radiusStep` and
whatever angle the root was assigned. -/
theorem c3_radial_projection (t : Node ℝ) (radiusStep : ℝ) :
    positionsSpec Real.cos Real.sin radiusStep
      (computeLayout Real.cos Real.sin (2 * Real.pi) radiusStep t) ∧
    (computeLayout Real.cos Real.sin (2 * Real.pi) radiusStep t).depth = 0 ∧
    (computeLayout Real.cos Real.sin (2 * Real.pi) radiusStep t).radius = 0 ∧
    (computeLayout Real.cos Real.sin (2 * Real.pi) radiusStep t).x = 0 ∧
    (computeLayout Real.cos Real.sin (2 * Real.pi) radiusStep t).y = 0 := by
  have hdepth : (assignAngles ((computeDepthAndLeaves t 0).1) 0 (2 * Real.pi)).depth
      = 0 := by
    rw [assignAngles_depth, computeDepthAndLeaves_fst_depth]
  refine ⟨(assignRadiiAndPositions_spec Real.cos Real.sin).1 _ _, ?_, ?_, ?_, ?_⟩
  · rw [computeLayout, assignRadiiAndPositions_depth, hdepth]
  · rw [computeLayout, assignRadiiAndPositions_radius, hdepth]
    simp
  · rw [computeLayout, assignRadiiAndPositions_x, hdepth]
    simp
  · rw [computeLayout, assignRadiiAndPositions_y, hdepth]
    simp

end RadialProjection

section LinkGeometry

variable {α : Type} [LinearOrderedField α]

theorem bezier3_eq_spec (p0x p0y p1x p1y p2x p2y p3x p3y t : α) :
    bezier3 p0x p0y p1x p1y p2x p2y p3x p3y t
      = bezierPointSpec (p0x, p0y) (p1x, p1y) (p2x, p2y) (p3x, p3y) t := by
  simp only [bezier3, bezierPointSpec, Prod.mk.injEq]
  constructor <;> ring

theorem bezier3_zero (p0x p0y p1x p1y p2x p2y p3x p3y : α) :
    bezier3 p0x p0y p1x p1y p2x p2y p3x p3y 0 = (p0x, p0y) := by
  simp only [bezier3, Prod.mk.injEq]
  constructor <;> ring

theorem bezier3_one (p0x p0y p1x p1y p2x p2y p3x p3y : α) :
    bezier3 p0x p0y p1x p1y p2x p2y p3x p3y 1 = (p3x, p3y) := by
  simp only [bezier3, Prod.mk.injEq]
  constructor <;> ring

theorem drawLinkBezier_head (cosF sinF : α → α) (rs : α) (N : ℕ) (P C : Node α) :
    (drawLinkBezier cosF sinF rs N P C).head? = some (P.x, P.y) := by
  simp only [drawLinkBezier]
  rw [List.range_succ_eq_map]
  simp only [List.map_cons, List.head?_cons]
  rw [show (((0 : ℕ) : α) / (N : α)) = 0 by simp]
  rw [bezier3_zero]

theorem drawLinkBezier_getLast (cosF sinF : α → α) (rs : α) {N : ℕ} (hN : 0 < N)
    (P C : Node α) :
    (drawLinkBezier cosF sinF rs N P C).getLast? = some (C.x, C.y) := by
  simp only [drawLinkBezier]
  rw [List.range_succ, List.map_append, List.map_cons, List.map_nil,
    List.getLast?_append_cons, List.getLast?_singleton]
  rw [show (((N : ℕ) : α) / (N : α)) = 1 from div_self (by exact_mod_cast hN.ne')]
  rw [bezier3_one]

/-- Claim C4: for an already-positioned parent `P` and child `C`, straight
mode emits exactly the two-point polyline `[P.pos, C.pos]`; curved mode
with `N` samples emits exactly `N + 1` points, namely the cubic Bézier
`B(t) = (1-t)³p0 + 3(1-t)²t p1 + 3(1-t)t²p2 + t³p3` at `t = i / N` for
`i = 0..N`, with `p0 = P.pos`, `p3 = C.pos`, `p1` at polar radius
`P.radius + 0.55 * radiusStep` along `P.angle` and `p2` at polar radius
`C.radius - 0.55 * radiusStep` along `C.angle`; in both modes the output
is nonempty, starts exactly at the parent anchor and ends exactly at the
child anchor. -/
theorem c4_link_geometry (cosF sinF : α → α) (rs : α) (N : ℕ) (hN : 0 < N)
    (P C : Node α) :
    drawLinkStraight P C = [(P.x, P.y), (C.x, C.y)] ∧
    drawLinkStraight P C ≠ [] ∧
    (drawLinkStraight P C).head? = some (P.x, P.y) ∧
    (drawLinkStraight P C).getLast? = some (C.x, C.y) ∧
    (drawLinkBezier cosF sinF rs N P C).length = N + 1 ∧
    drawLinkBezier cosF sinF rs N P C
      = (List.range (N + 1)).map (fun i : ℕ =>
          bezierPointSpec (P.x, P.y)
            (polar cosF sinF (P.radius + (11 / 20 : α) * rs) P.angle)
            (polar cosF sinF (C.radius - (11 / 20 : α) * rs) C.angle)
            (C.x, C.y) ((i : α) / (N : α))) ∧
    drawLinkBezier cosF sinF rs N P C ≠ [] ∧
    (drawLinkBezier cosF sinF rs N P C).head? = some (P.x, P.y) ∧
    (drawLinkBezier cosF sinF rs N P C).getLast? = some (C.x, C.y) := by
  refine ⟨rfl, by simp [drawLinkStraight], rfl, rfl, ?_, ?_, ?_,
    drawLinkBezier_head cosF sinF rs N P C,
    drawLinkBezier_getLast cosF sinF rs hN P C⟩
  · simp [drawLinkBezier]
  · simp only [drawLinkBezier]
    congr 1
    funext i
    simp only [bezier3, bezierPointSpec, polar, Prod.mk.injEq]
    constructor <;> ring
  · simp [drawLinkBezier]

/-- Concrete parent node used to witness the link-geometry theorem. -/
def witnessParent : Node ℚ := Node.mk ⟨"p", "P", 0, 1, 1, 2, 3, 4⟩ []

/-- Concrete child node used to witness the link-geometry theorem. -/
def witnessChild : Node ℚ := Node.mk ⟨"c", "C", 1, 1, 5, 6, 7, 8⟩ []

/-- Witness for claim C4 at the default sample count `N = 28` over `ℚ`. -/
theorem c4_link_geometry_witness :
    (0 < 28) ∧
    (drawLinkStraight witnessParent witnessChild
      = [(witnessParent.x, witnessParent.y), (witnessChild.x, witnessChild.y)] ∧
    drawLinkStraight witnessParent witnessChild ≠ [] ∧
    (drawLinkStraight witnessParent witnessChild).head?
      = some (witnessParent.x, witnessParent.y) ∧
    (drawLinkStraight witnessParent witnessChild).getLast?
      = some (witnessChild.x, witnessChild.y) ∧
    (drawLinkBezier id id 35 28 witnessParent witnessChild).length = 28 + 1 ∧
    drawLinkBezier id id 35 28 witnessParent witnessChild
      = (List.range (28 + 1)).map (fun i : ℕ =>
          bezierPointSpec (witnessParent.x, witnessParent.y)
            (polar id id (witnessParent.radius + (11 / 20 : ℚ) * 35) witnessParent.angle)
            (polar id id (witnessChild.radius - (11 / 20 : ℚ) * 35) witnessChild.angle)
            (witnessChild.x, witnessChild.y) ((i : ℚ) / ((28 : ℕ) : ℚ))) ∧
    drawLinkBezier id id 35 28 witnessParent witnessChild ≠ [] ∧
    (drawLinkBezier id id 35 28 witnessParent witnessChild).head?
      = some (witnessParent.x, witnessParent.y) ∧
    (drawLinkBezier id id 35 28 witnessParent witnessChild).getLast?
      = some (witnessChild.x, witnessChild.y)) :=
  ⟨by decide, c4_link_geometry id id 35 28 (by decide) witnessParent witnessChild⟩

end LinkGeometry

section ParseOrder

theorem parseNodeList_eq_docOrder {α : Type} [LinearOrderedField α] (xs : List XmlNode) :
    ∀ (acc : List (Node α)) (autoId : ℕ),
      parseNodeList xs acc autoId
        = ((parseNodeListDocOrder (α := α) xs autoId).1.reverse ++ acc,
           (parseNodeListDocOrder (α := α) xs autoId).2) := by
  induction xs with
  | nil => intro acc autoId; simp [parseNodeList, parseNodeListDocOrder]
  | cons x rest ih =>
    intro acc autoId
    simp only [parseNodeList, parseNodeListDocOrder]
    rw [ih]
    simp [List.append_assoc]

/-- Claim C6: parsing inserts each newly parsed child at the front of its
parent's child list, so for every parent the final sibling order — the one
the angular partition pass consumes — is exactly the reverse of the
children's document order (`parseNodeListDocOrder` parses the same
children in document order). -/
theorem c6_children_reverse_doc_order (α : Type) [LinearOrderedField α]
    (x : XmlNode) (autoId : ℕ) :
    ((parseNode (α := α) x autoId).1).children
      = ((parseNodeListDocOrder (α := α) x.children
          (postIdCounter x autoId)).1).reverse := by
  cases x with
  | mk idAttr textAttr xcs =>
    simp only [parseNode, XmlNode.children, postIdCounter, XmlNode.idAttr]
    rw [parseNodeList_eq_docOrder]
    simp

end ParseOrder

section FrameLemmas

variable {α : Type} [LinearOrderedField α]

theorem stripComputed_computeDepthAndLeaves :
    (∀ n : Node α, ∀ dep : Int,
      stripComputed ((computeDepthAndLeaves n dep).1) = stripComputed n) ∧
    (∀ cs : List (Node α), ∀ dep : Int,
      stripComputedList ((computeDepthAndLeavesList cs dep).1)
        = stripComputedList cs) := by
  refine Node.recPair _ _ ?_ ?_ ?_
  · intro d cs hQ dep
    cases cs with
    | nil => rfl
    | cons c rest =>
      have h : (computeDepthAndLeaves (Node.mk d (c :: rest)) dep).1
          = Node.mk
              { d with
                depth := dep
                leafCount := max 1 (computeDepthAndLeavesList (c :: rest) (dep + 1)).2 }
              ((computeDepthAndLeavesList (c :: rest) (dep + 1)).1) := rfl
      rw [h]
      simp only [stripComputed, Node.mk.injEq]
      exact ⟨trivial, hQ (dep + 1)⟩
  · intro dep; rfl
  · intro c rest hP hQ dep
    simp only [computeDepthAndLeavesList, stripComputedList, List.cons.injEq]
    exact ⟨hP dep, hQ dep⟩

theorem stripComputed_assignAngles :
    (∀ n : Node α, ∀ a0 a1 : α,
      stripComputed (assignAngles n a0 a1) = stripComputed n) ∧
    (∀ cs : List (Node α), ∀ (cur span : α) (total : Int),
      stripComputedList (assignAnglesList cs cur span total)
        = stripComputedList cs) := by
  refine Node.recPair _ _ ?_ ?_ ?_
  · intro d cs hQ a0 a1
    cases cs with
    | nil => rfl
    | cons c rest =>
      have h : assignAngles (Node.mk d (c :: rest)) a0 a1
          = Node.mk { d with angle := (1 / 2 : α) * (a0 + a1) }
              (assignAnglesList (c :: rest) a0 (a1 - a0)
                (max 1 (sumLeafCounts (c :: rest)))) := by
        simp [assignAngles]
      rw [h]
      simp only [stripComputed, Node.mk.injEq]
      exact ⟨trivial, hQ _ _ _⟩
  · intro cur span total; rfl
  · intro c rest hP hQ cur span total
    simp only [assignAnglesList, stripComputedList, List.cons.injEq]
    exact ⟨hP _ _, hQ _ _ _⟩

theorem stripComputed_assignRadiiAndPositions (cosF sinF : α → α) :
    (∀ n : Node α, ∀ rs : α,
      stripComputed (assignRadiiAndPositions cosF sinF n rs) = stripComputed n) ∧
    (∀ cs : List (Node α), ∀ rs : α,
      stripComputedList (assignRadiiAndPositionsList cosF sinF cs rs)
        = stripComputedList cs) := by
  refine Node.recPair _ _ ?_ ?_ ?_
  · intro d cs hQ rs
    simp only [assignRadiiAndPositions, stripComputed, Node.mk.injEq]
    exact ⟨trivial, hQ rs⟩
  · intro rs; rfl
  · intro c rest hP hQ rs
    simp only [assignRadiiAndPositionsList, stripComputedList, List.cons.injEq]
    exact ⟨hP rs, hQ rs⟩

theorem stripComputed_computeLayout (cosF sinF : α → α) (twoPi rs : α) (t : Node α) :
    stripComputed (computeLayout cosF sinF twoPi rs t) = stripComputed t := by
  rw [computeLayout, (stripComputed_assignRadiiAndPositions cosF sinF).1,
    stripComputed_assignAngles.1, stripComputed_computeDepthAndLeaves.1]

end FrameLemmas

section UnfoldLemmas

variable {α : Type} [LinearOrderedField α]

theorem stripComputed_mk (d : NodeData α) (cs : List (Node α)) :
    stripComputed (Node.mk d cs)
      = Node.mk ⟨d.id, d.text, 0, 0, 0, 0, 0, 0⟩ (stripComputedList cs) := rfl

theorem stripComputedList_cons (c : Node α) (rest : List (Node α)) :
    stripComputedList (c :: rest) = stripComputed c :: stripComputedList rest := rfl

theorem stripAngleRXY_mk (d : NodeData α) (cs : List (Node α)) :
    stripAngleRXY (Node.mk d cs)
      = Node.mk ⟨d.id, d.text, d.depth, d.leafCount, 0, 0, 0, 0⟩
          (stripAngleRXYList cs) := rfl

theorem stripAngleRXYList_cons (c : Node α) (rest : List (Node α)) :
    stripAngleRXYList (c :: rest) = stripAngleRXY c :: stripAngleRXYList rest := rfl

theorem stripRXY_mk (d : NodeData α) (cs : List (Node α)) :
    stripRXY (Node.mk d cs)
      = Node.mk ⟨d.id, d.text, d.depth, d.leafCount, d.angle, 0, 0, 0⟩
          (stripRXYList cs) := rfl

theorem stripRXYList_cons (c : Node α) (rest : List (Node α)) :
    stripRXYList (c :: rest) = stripRXY c :: stripRXYList rest := rfl

omit [LinearOrderedField α] in
theorem computeDepthAndLeavesList_cons (c : Node α) (rest : List (Node α))
    (dep : Int) :
    computeDepthAndLeavesList (c :: rest) dep
      = ((computeDepthAndLeaves c dep).1 :: (computeDepthAndLeavesList rest dep).1,
         (computeDepthAndLeaves c dep).2 + (computeDepthAndLeavesList rest dep).2) := rfl

omit [LinearOrderedField α] in
theorem computeDepthAndLeaves_mk_cons (d : NodeData α) (c : Node α)
    (rest : List (Node α)) (dep : Int) :
    computeDepthAndLeaves (Node.mk d (c :: rest)) dep
      = (Node.mk
          { d with
            depth := dep
            leafCount := max 1 (computeDepthAndLeavesList (c :: rest) (dep + 1)).2 }
          ((computeDepthAndLeavesList (c :: rest) (dep + 1)).1),
         max 1 (computeDepthAndLeavesList (c :: rest) (dep + 1)).2) := rfl

theorem assignAngles_mk_cons (d : NodeData α) (c : Node α)
    (rest : List (Node α)) (a0 a1 : α) :
    assignAngles (Node.mk d (c :: rest)) a0 a1
      = Node.mk { d with angle := (1 / 2 : α) * (a0 + a1) }
          (assignAnglesList (c :: rest) a0 (a1 - a0)
            (max 1 (sumLeafCounts (c :: rest)))) := rfl

theorem assignAnglesList_cons (c : Node α) (rest : List (Node α))
    (cur span : α) (total : Int) :
    assignAnglesList (c :: rest) cur span total
      = assignAngles c cur (cur + span * ((c.leafCount : α) / (total : α)))
          :: assignAnglesList rest (cur + span * ((c.leafCount : α) / (total : α)))
              span total := rfl

theorem assignRadiiAndPositions_mk (cosF sinF : α → α) (d : NodeData α)
    (cs : List (Node α)) (rs : α) :
    assignRadiiAndPositions cosF sinF (Node.mk d cs) rs
      = Node.mk
          { d with
            radius := (d.depth : α) * rs
            x := cosF d.angle * ((d.depth : α) * rs)
            y := sinF d.angle * ((d.depth : α) * rs) }
          (assignRadiiAndPositionsList cosF sinF cs rs) := rfl

theorem assignRadiiAndPositionsList_cons (cosF sinF : α → α) (c : Node α)
    (rest : List (Node α)) (rs : α) :
    assignRadiiAndPositionsList cosF sinF (c :: rest) rs
      = assignRadiiAndPositions cosF sinF c rs
          :: assignRadiiAndPositionsList cosF sinF rest rs := rfl

theorem stripAngleRXY_leafCount (n : Node α) :
    (stripAngleRXY n).leafCount = n.leafCount := by
  cases n with
  | mk d cs => rfl

theorem sumLeafCounts_stripAngleRXYList (cs : List (Node α)) :
    sumLeafCounts (stripAngleRXYList cs) = sumLeafCounts cs := by
  induction cs with
  | nil => rfl
  | cons c rest ih =>
    rw [stripAngleRXYList_cons, sumLeafCounts_cons, sumLeafCounts_cons,
      stripAngleRXY_leafCount, ih]

end UnfoldLemmas

section PassCommutation

variable {α : Type} [LinearOrderedField α]

/-- The leaf-count pass ignores the computed fields of its input: running
it on the stripped tree produces the stripped-modulo-(angle, radius, x, y)
version of its usual output, with the same returned count. -/
theorem computeDepthAndLeaves_stripComputed :
    (∀ n : Node α, ∀ dep : Int,
      computeDepthAndLeaves (stripComputed n) dep
        = (stripAngleRXY ((computeDepthAndLeaves n dep).1),
           (computeDepthAndLeaves n dep).2)) ∧
    (∀ cs : List (Node α), ∀ dep : Int,
      computeDepthAndLeavesList (stripComputedList cs) dep
        = (stripAngleRXYList ((computeDepthAndLeavesList cs dep).1),
           (computeDepthAndLeavesList cs dep).2)) := by
  refine Node.recPair _ _ ?_ ?_ ?_
  · intro d cs hQ dep
    cases cs with
    | nil => rfl
    | cons c rest =>
      have hl := hQ (dep + 1)
      rw [stripComputedList_cons] at hl
      rw [stripComputed_mk, stripComputedList_cons, computeDepthAndLeaves_mk_cons,
        computeDepthAndLeaves_mk_cons, hl, stripAngleRXY_mk]
  · intro dep; rfl
  · intro c rest hP hQ dep
    rw [stripComputedList_cons, computeDepthAndLeavesList_cons,
      computeDepthAndLeavesList_cons, hP, hQ, stripAngleRXYList_cons]

/-- The angular partition pass reads only `leafCount` and the tree shape
and writes only `angle`: running it after `stripAngleRXY` equals stripping
`radius`, `x`, `y` from its usual output. -/
theorem assignAngles_stripAngleRXY :
    (∀ n : Node α, ∀ a0 a1 : α,
      assignAngles (stripAngleRXY n) a0 a1 = stripRXY (assignAngles n a0 a1)) ∧
    (∀ cs : List (Node α), ∀ (cur span : α) (total : Int),
      assignAnglesList (stripAngleRXYList cs) cur span total
        = stripRXYList (assignAnglesList cs cur span total)) := by
  refine Node.recPair _ _ ?_ ?_ ?_
  · intro d cs hQ a0 a1
    cases cs with
    | nil => rfl
    | cons c rest =>
      have hl := hQ a0 (a1 - a0) (max 1 (sumLeafCounts (c :: rest)))
      rw [stripAngleRXYList_cons] at hl
      rw [stripAngleRXY_mk, stripAngleRXYList_cons, assignAngles_mk_cons,
        assignAngles_mk_cons]
      rw [← stripAngleRXYList_cons, sumLeafCounts_stripAngleRXYList,
        stripAngleRXYList_cons, hl, stripRXY_mk]
  · intro cur span total; rfl
  · intro c rest hP hQ cur span total
    rw [stripAngleRXYList_cons, assignAnglesList_cons, assignAnglesList_cons,
      stripAngleRXY_leafCount, hP, hQ, stripRXYList_cons]

/-- The radial projection pass reads only `depth` and `angle` and
overwrites `radius`, `x`, `y`, so stripping those fields first does not
change its output. -/
theorem assignRadiiAndPositions_stripRXY (cosF sinF : α → α) :
    (∀ n : Node α, ∀ rs : α,
      assignRadiiAndPositions cosF sinF (stripRXY n) rs
        = assignRadiiAndPositions cosF sinF n rs) ∧
    (∀ cs : List (Node α), ∀ rs : α,
      assignRadiiAndPositionsList cosF sinF (stripRXYList cs) rs
        = assignRadiiAndPositionsList cosF sinF cs rs) := by
  refine Node.recPair _ _ ?_ ?_ ?_
  · intro d cs hQ rs
    rw [stripRXY_mk, assignRadiiAndPositions_mk, assignRadiiAndPositions_mk, hQ rs]
  · intro rs; rfl
  · intro c rest hP hQ rs
    rw [stripRXYList_cons, assignRadiiAndPositionsList_cons,
      assignRadiiAndPositionsList_cons, hP, hQ]

/-- The full layout pipeline gives the same result on a tree whose
computed fields have been reset: the output depends only on the intrinsic
content (`id`, `text`, structure) of the input. -/
theorem computeLayout_stripComputed (cosF sinF : α → α) (twoPi rs : α)
    (t : Node α) :
    computeLayout cosF sinF twoPi rs (stripComputed t)
      = computeLayout cosF sinF twoPi rs t := by
  rw [computeLayout, computeLayout]
  have h1 : (computeDepthAndLeaves (stripComputed t) 0).1
      = stripAngleRXY ((computeDepthAndLeaves t 0).1) := by
    rw [computeDepthAndLeaves_stripComputed.1]
  rw [h1, assignAngles_stripAngleRXY.1, (assignRadiiAndPositions_stripRXY cosF sinF).1]

end PassCommutation

section IdempotenceAndFrame

/-- Claim C7: the full layout pass is deterministic in the tree's intrinsic
content (`id`, `text`, child structure) and the configuration — its output
on `t` equals its output on `stripComputed t`, so no stale computed field
influences the result — and running it twice in a row on the same tree
yields the identical per-node `(depth, leafCount, angle, radius, x, y)`
outputs: no hidden mutable state carries over between runs. -/
theorem c7_layout_idempotent_deterministic (cosF sinF : ℝ → ℝ)
    (twoPi radiusStep : ℝ) (t : Node ℝ) :
    computeLayout cosF sinF twoPi radiusStep
        (computeLayout cosF sinF twoPi radiusStep t)
      = computeLayout cosF sinF twoPi radiusStep t ∧
    computeLayout cosF sinF twoPi radiusStep t
      = computeLayout cosF sinF twoPi radiusStep (stripComputed t) := by
  constructor
  · calc computeLayout cosF sinF twoPi radiusStep
          (computeLayout cosF sinF twoPi radiusStep t)
        = computeLayout cosF sinF twoPi radiusStep
            (stripComputed (computeLayout cosF sinF twoPi radiusStep t)) :=
          (computeLayout_stripComputed cosF sinF twoPi radiusStep _).symm
      _ = computeLayout cosF sinF twoPi radiusStep (stripComputed t) := by
          rw [stripComputed_computeLayout]
      _ = computeLayout cosF sinF twoPi radiusStep t :=
          computeLayout_stripComputed cosF sinF twoPi radiusStep t
  · exact (computeLayout_stripComputed cosF sinF twoPi radiusStep t).symm

/-- Claim C9: each of the three layout passes, and the full `computeLayout`
pipeline, writes only the computed per-node fields (`depth`, `leafCount`,
`angle`, `radius`, `x`, `y`): stripping those fields from the output
recovers the stripped input, so every node's `id`, `text`, and child
sequence (membership and order) are unchanged, and no node is created or
destroyed.  The C++ `parent` pointer is represented by the tree structure
itself, which is preserved. -/
theorem c9_layout_frame (cosF sinF : ℝ → ℝ) (a0 a1 twoPi radiusStep : ℝ)
    (t : Node ℝ) (dep : Int) :
    stripComputed ((computeDepthAndLeaves t dep).1) = stripComputed t ∧
    stripComputed (assignAngles t a0 a1) = stripComputed t ∧
    stripComputed (assignRadiiAndPositions cosF sinF t radiusStep)
      = stripComputed t ∧
    stripComputed (computeLayout cosF sinF twoPi radiusStep t)
      = stripComputed t :=
  ⟨stripComputed_computeDepthAndLeaves.1 t dep,
   stripComputed_assignAngles.1 t a0 a1,
   (stripComputed_assignRadiiAndPositions cosF sinF).1 t radiusStep,
   stripComputed_computeLayout cosF sinF twoPi radiusStep t⟩

end IdempotenceAndFrame

section DivisorClamp

theorem divisorPosAll_all {α : Type} :
    (∀ n : Node α, divisorPosAll n) ∧ (∀ cs : List (Node α), divisorPosList cs) := by
  refine Node.recPair _ _ ?_ ?_ ?_
  · intro d cs hQ
    rw [divisorPosAll]
    exact ⟨by omega, hQ⟩
  · rw [divisorPosList]; trivial
  · intro c rest hP hQ
    rw [divisorPosList]
    exact ⟨hP, hQ⟩

theorem clampNoopAll_of_allLeafPos {α : Type} :
    (∀ n : Node α, allLeafPos n → clampNoopAll n) ∧
    (∀ cs : List (Node α), allLeafPosList cs → clampNoopList cs) := by
  refine Node.recPair _ _ ?_ ?_ ?_
  · intro d cs hQ hp
    rw [allLeafPos] at hp
    rw [clampNoopAll]
    refine ⟨?_, hQ hp.2⟩
    cases cs with
    | nil => exact Or.inl rfl
    | cons c rest =>
      refine Or.inr ?_
      have := sumLeafCounts_pos hp.2 (List.cons_ne_nil c rest)
      omega
  · intro h; rw [clampNoopList]; trivial
  · intro c rest hP hQ hp
    rw [allLeafPosList] at hp
    rw [clampNoopList]
    exact ⟨hP hp.1, hQ hp.2⟩

/-- Claim C8: the divisor `assignAngles` divides by is `max 1 (Σ children
leafCount)`, which is strictly positive on every node of any tree whatever
the stored `leafCount`s are (`divisorPosAll`), so the per-child fraction
never divides by zero; and on a tree produced by the leaf-count pass —
where every `leafCount ≥ 1` — the clamp never changes the value at a node
that has children (`clampNoopAll`), so the defensive branch is unreachable
under that precondition. -/
theorem c8_divisor_positive_clamp_noop (u t : Node ℝ) (dep : Int) :
    divisorPosAll u ∧ clampNoopAll ((computeDepthAndLeaves t dep).1) :=
  ⟨divisorPosAll_all.1 u,
   clampNoopAll_of_allLeafPos.1 _ (computeDepthAndLeaves_allLeafPos t dep)⟩

end DivisorClamp

section Parsing

/-- Strong induction principle for the nested `XmlNode` type, paired with a
list-level predicate. -/
theorem XmlNode.pairInduction (P : XmlNode → Prop) (Q : List XmlNode → Prop)
    (hmk : ∀ i t cs, Q cs → P (XmlNode.mk i t cs))
    (hnil : Q [])
    (hcons : ∀ c rest, P c → Q rest → Q (c :: rest)) :
    (∀ x, P x) ∧ (∀ cs, Q cs) := by
  have hx : ∀ x, P x := fun x =>
    @XmlNode.rec (fun m => P m) (fun l => Q l) hmk hnil hcons x
  refine ⟨hx, ?_⟩
  intro cs
  induction cs with
  | nil => exact hnil
  | cons c rest ih => exact hcons c rest (hx c) ih

theorem auto_id_ne_empty (k : ℕ) : "auto_" ++ toString k ≠ "" := by
  intro h
  have h1 := congrArg String.length h
  rw [String.length_append] at h1
  simp at h1
  exact absurd h1.1 (by decide)

theorem parseNode_mk {α : Type} [LinearOrderedField α] (i t : String)
    (xcs : List XmlNode) (autoId : ℕ) :
    parseNode (α := α) (XmlNode.mk i t xcs) autoId
      = (Node.mk
          ⟨if i = "" then "auto_" ++ toString autoId else i,
           if t = "" then (if i = "" then "auto_" ++ toString autoId else i) else t,
           0, 0, 0, 0, 0, 0⟩
          ((parseNodeList (α := α) xcs []
            (if i = "" then autoId + 1 else autoId)).1),
         (parseNodeList (α := α) xcs []
            (if i = "" then autoId + 1 else autoId)).2) := rfl

theorem parseNodeList_cons {α : Type} [LinearOrderedField α] (x : XmlNode)
    (rest : List XmlNode) (acc : List (Node α)) (autoId : ℕ) :
    parseNodeList (α := α) (x :: rest) acc autoId
      = parseNodeList (α := α) rest ((parseNode (α := α) x autoId).1 :: acc)
          (parseNode (α := α) x autoId).2 := rfl

theorem parseNodeList_nil {α : Type} [LinearOrderedField α]
    (acc : List (Node α)) (autoId : ℕ) :
    parseNodeList (α := α) [] acc autoId = (acc, autoId) := rfl

theorem idsOf_mk {α : Type} (d : NodeData α) (cs : List (Node α)) :
    idsOf (Node.mk d cs) = d.id :: idsOfList cs := rfl

theorem idsOfList_cons {α : Type} (c : Node α) (rest : List (Node α)) :
    idsOfList (c :: rest) = idsOf c ++ idsOfList rest := rfl

theorem xmlIdsOf_mk (i t : String) (cs : List XmlNode) :
    xmlIdsOf (XmlNode.mk i t cs) = i :: xmlIdsOfList cs := rfl

theorem xmlIdsOfList_cons (c : XmlNode) (rest : List XmlNode) :
    xmlIdsOfList (c :: rest) = xmlIdsOf c ++ xmlIdsOfList rest := rfl

theorem parseNode_id {α : Type} [LinearOrderedField α] (x : XmlNode) (autoId : ℕ) :
    ((parseNode (α := α) x autoId).1).id
      = if x.idAttr = "" then "auto_" ++ toString autoId else x.idAttr := by
  cases x with
  | mk i t xcs => rw [parseNode_mk]; rfl

theorem parseNode_text {α : Type} [LinearOrderedField α] (x : XmlNode)
    (autoId : ℕ) :
    ((parseNode (α := α) x autoId).1).text
      = if x.textAttr = "" then ((parseNode (α := α) x autoId).1).id
        else x.textAttr := by
  cases x with
  | mk i t xcs => rw [parseNode_mk]; rfl

theorem parseNode_id_ne_empty {α : Type} [LinearOrderedField α] (x : XmlNode)
    (autoId : ℕ) : ((parseNode (α := α) x autoId).1).id ≠ "" := by
  rw [parseNode_id]
  by_cases h : x.idAttr = ""
  · rw [if_pos h]; exact auto_id_ne_empty autoId
  · rw [if_neg h]; exact h

theorem parseNode_ids_ne_empty {α : Type} [LinearOrderedField α] :
    (∀ x : XmlNode, ∀ autoId : ℕ,
      ∀ s ∈ idsOf ((parseNode (α := α) x autoId).1), s ≠ "") ∧
    (∀ xs : List XmlNode, ∀ (autoId : ℕ) (acc : List (Node α)),
      (∀ s ∈ idsOfList acc, s ≠ "") →
      ∀ s ∈ idsOfList ((parseNodeList (α := α) xs acc autoId).1), s ≠ "") := by
  refine XmlNode.pairInduction _ _ ?_ ?_ ?_
  · intro i t cs hQ autoId s hs
    rw [parseNode_mk, idsOf_mk] at hs
    rcases List.mem_cons.mp hs with h1 | h2
    · subst h1
      exact parseNode_id_ne_empty (α := α) (XmlNode.mk i t cs) autoId
    · refine hQ _ [] ?_ s h2
      intro s2 hs2
      exact absurd hs2 (List.not_mem_nil s2)
  · intro autoId acc hacc s hs
    rw [parseNodeList_nil] at hs
    exact hacc s hs
  · intro x rest hP hQ autoId acc hacc s hs
    rw [parseNodeList_cons] at hs
    refine hQ _ _ ?_ s hs
    intro s2 hs2
    rw [idsOfList_cons] at hs2
    rcases List.mem_append.mp hs2 with h1 | h2
    · exact hP autoId s2 h1
    · exact hacc s2 h2

theorem parseNode_perm_ids {α : Type} [LinearOrderedField α] :
    (∀ x : XmlNode, ∀ autoId : ℕ, xmlAllIdsPresent x →
      (parseNode (α := α) x autoId).2 = autoId ∧
      (idsOf ((parseNode (α := α) x autoId).1)).Perm (xmlIdsOf x)) ∧
    (∀ xs : List XmlNode, ∀ (autoId : ℕ) (acc : List (Node α)),
      xmlAllIdsPresentList xs →
      (parseNodeList (α := α) xs acc autoId).2 = autoId ∧
      (idsOfList ((parseNodeList (α := α) xs acc autoId).1)).Perm
        (xmlIdsOfList xs ++ idsOfList acc)) := by
  refine XmlNode.pairInduction _ _ ?_ ?_ ?_
  · intro i t cs hQ autoId hp
    rw [xmlAllIdsPresent] at hp
    obtain ⟨hq1, hq2⟩ := hQ autoId [] hp.2
    rw [parseNode_mk]
    simp only [if_neg hp.1]
    rw [idsOf_mk, xmlIdsOf_mk]
    refine ⟨hq1, ?_⟩
    have hq3 : (idsOfList ((parseNodeList (α := α) cs [] autoId).1)).Perm
        (xmlIdsOfList cs) := by
      have h0 : idsOfList ([] : List (Node α)) = [] := rfl
      rw [h0, List.append_nil] at hq2
      exact hq2
    exact hq3.cons i
  · intro autoId acc hp
    rw [parseNodeList_nil]
    refine ⟨rfl, ?_⟩
    have h0 : xmlIdsOfList [] = [] := rfl
    rw [h0, List.nil_append]
  · intro x rest hP hQ autoId acc hp
    rw [xmlAllIdsPresentList] at hp
    obtain ⟨hp1, hp2⟩ := hP autoId hp.1
    rw [parseNodeList_cons, hp1]
    obtain ⟨hq1, hq2⟩ := hQ autoId ((parseNode (α := α) x autoId).1 :: acc) hp.2
    refine ⟨hq1, ?_⟩
    refine hq2.trans ?_
    rw [idsOfList_cons, xmlIdsOfList_cons, ← List.append_assoc]
    exact ((List.perm_append_comm).append_right _).trans
      ((hp2.append_right _).append_right _)

/-- Claim C5 (amended): every parsed node carries a nonempty identifier —
the source `ID` attribute when present, otherwise the synthesized
`auto_<counter>` — and a display text that falls back to the (final)
identifier exactly when the source `TEXT` attribute is empty; and the
identifiers are unique across the whole tree provided every source element
carries an `ID` attribute and those attributes are pairwise distinct.
(Uniqueness does not hold unconditionally: duplicate source IDs — or a
source ID colliding with a synthesized `auto_k` — survive parsing
unchanged; see the counterexample.) -/
theorem c5_parse_ids_amended (α : Type) [LinearOrderedField α] (x : XmlNode)
    (autoId : ℕ) :
    ((parseNode (α := α) x autoId).1).id ≠ "" ∧
    (x.idAttr ≠ "" → ((parseNode (α := α) x autoId).1).id = x.idAttr) ∧
    (x.idAttr = "" →
      ((parseNode (α := α) x autoId).1).id = "auto_" ++ toString autoId) ∧
    (x.textAttr = "" →
      ((parseNode (α := α) x autoId).1).text
        = ((parseNode (α := α) x autoId).1).id) ∧
    (x.textAttr ≠ "" → ((parseNode (α := α) x autoId).1).text = x.textAttr) ∧
    (∀ s ∈ idsOf ((parseNode (α := α) x autoId).1), s ≠ "") ∧
    (xmlAllIdsPresent x → (xmlIdsOf x).Nodup →
      (idsOf ((parseNode (α := α) x autoId).1)).Nodup) := by
  refine ⟨parseNode_id_ne_empty x autoId, ?_, ?_, ?_, ?_,
    parseNode_ids_ne_empty.1 x autoId, ?_⟩
  · intro h; rw [parseNode_id, if_neg h]
  · intro h; rw [parseNode_id, if_pos h]
  · intro h; rw [parseNode_text, if_pos h]
  · intro h; rw [parseNode_text, if_neg h]
  · intro hp hnod
    have hperm := ((parseNode_perm_ids (α := α)).1 x autoId hp).2
    exact hperm.symm.nodup hnod

/-- Source document with two sibling elements that carry the same `ID`
attribute. -/
def dupIdXml : XmlNode :=
  XmlNode.mk "r" "root" [XmlNode.mk "a" "left" [], XmlNode.mk "a" "right" []]

/-- Counterexample to claim C5 as stated: on a source with duplicate `ID`
attributes the parsed tree's identifiers are not unique. -/
theorem c5_counterexample_duplicate_ids :
    ¬ (idsOf ((parseNode (α := ℚ) dupIdXml 1).1)).Nodup := by decide

/-- Source document with distinct, everywhere-present `ID` attributes,
used to witness the amended claim C5. -/
def distinctIdXml : XmlNode :=
  XmlNode.mk "r" "" [XmlNode.mk "a" "A" [], XmlNode.mk "b" "" []]

/-- Witness for the amended claim C5: on a concrete source with distinct
present IDs, the hypotheses hold and the parsed identifiers are unique. -/
theorem c5_parse_ids_amended_witness :
    xmlAllIdsPresent distinctIdXml ∧ (xmlIdsOf distinctIdXml).Nodup ∧
    (idsOf ((parseNode (α := ℚ) distinctIdXml 1).1)).Nodup := by
  have hp : xmlAllIdsPresent distinctIdXml := by
    rw [distinctIdXml, xmlAllIdsPresent]
    refine ⟨by decide, ?_⟩
    rw [xmlAllIdsPresentList]
    refine ⟨?_, ?_⟩
    · rw [xmlAllIdsPresent]
      exact ⟨by decide, trivial⟩
    · rw [xmlAllIdsPresentList]
      refine ⟨?_, trivial⟩
      rw [xmlAllIdsPresent]
      exact ⟨by decide, trivial⟩
  have hnod : (xmlIdsOf distinctIdXml).Nodup := by decide
  exact ⟨hp, hnod, (c5_parse_ids_amended ℚ distinctIdXml 1).2.2.2.2.2.2 hp hnod⟩

end Parsing

end RadialGL
